import Mathlib

/-!
Verification of the andy repository's hash map.

The sources are src/lib/EHash.h (class EHash<K,V>), src/lib/ELinkedList.h
(class ELinkedList<T>) and src/lib/ENode.h (struct ENode<T>).  The embedding
below is a direct translation:

* An ELinkedList<T> chain is a Lean List T whose front is the head pointer.
  ELinkedList::insert is list cons (head insertion), ELinkedList::find is
  List.find?, ELinkedList::remove is elistRemove.
* EHash<K,V> is the record of its two data members: the bucket vector
  (a list of chains) and numElements.  maxLoad is the compile-time constant
  0.75f; the float comparison (float)numElements / buckets.size() > 0.75f
  is rendered exactly in integers as 3 * size < 4 * numElements, which agrees
  with the IEEE evaluation for every power-of-two size with counts below 2^24
  (division by a power of two is exact) and also at size = 0, where c/0.0 is
  +inf (> 0.75) for c > 0 and NaN (not > 0.75) for c = 0.
* std::hash<K> is an arbitrary function hash : K -> Nat passed explicitly;
  std::hash is deterministic, nothing else about it is assumed.
* EHash::insert and EHash::rehash are mutually recursive in the source and
  the source's recursion is not structurally decreasing (rehash re-enters
  insert), so the embedding is fueled: insertF consumes one unit of fuel per
  rehash invocation and returns none when fuel runs out.  fuelFor gives an
  explicit fuel that is proved sufficient (insertF_total), and the total
  EHash.insert runs insertF at that fuel.
* size_t arithmetic is modeled on Nat.  numElements-- in EHash::remove is
  Nat subtraction; the two agree whenever numElements >= 1, which the
  invariant Inv guarantees at every successful removal.
* buckets[idx] demands idx < buckets.size() in C++; the embedding uses the
  total List.getD / List.set, which agree whenever the index is in range.
-/

set_option linter.unusedSectionVars false

namespace Andy

/-- EHash::Pair (src/lib/EHash.h lines 31-35): internal key-value pair. -/
structure Pair (K V : Type) where
  key : K
  value : V
deriving DecidableEq, Repr

/-- ELinkedList::remove (src/lib/ELinkedList.h lines 70-87): unlink and delete
the first node matching the predicate; return whether a removal occurred,
paired with the resulting chain. -/
def elistRemove {T : Type} (pred : T → Bool) : List T → Bool × List T
  | [] => (false, [])
  | x :: xs =>
    if pred x then (true, xs)
    else
      let r := elistRemove pred xs
      (r.1, x :: r.2)

/-- EHash<K,V> (src/lib/EHash.h lines 26-151): the bucket vector and the
element counter.  maxLoad = 0.75f is a constant, kept implicit in
loadExceeded. -/
structure EHash (K V : Type) where
  buckets : List (List (Pair K V))
  numElements : Nat
deriving DecidableEq, Repr

/-- EHash::EHash(size_t size) (line 83): `buckets(size)` value-initializes
`size` empty chains; numElements starts at 0.  No validation of size. -/
def EHash.empty (K V : Type) (size : Nat) : EHash K V :=
  { buckets := List.replicate size [], numElements := 0 }

variable {K V : Type} [DecidableEq K]

/-- EHash::hashKey (lines 49-52): std::hash<K>{}(key) % buckets.size(). -/
def EHash.hashKey (hash : K → Nat) (t : EHash K V) (k : K) : Nat :=
  hash k % t.buckets.length

/-- The load-factor test of EHash::insert (line 96):
(float)numElements / buckets.size() > maxLoad with maxLoad = 0.75f,
exactly: numElements / size > 3/4 iff 3 * size < 4 * numElements. -/
def loadExceeded (t : EHash K V) : Prop :=
  3 * t.buckets.length < 4 * t.numElements

instance (t : EHash K V) : Decidable (loadExceeded t) :=
  Nat.decLt _ _

/-- The key-equality predicate EHash passes to the chain operations: the C++
lambda [&](const Pair& p) { return p.key == key; }. -/
def keyIs (k : K) : Pair K V → Bool := fun p => decide (p.key = k)

/-- The in-place overwrite `found->value = value` (line 108): replace the
value of the first chain node whose key matches; the node's key is kept. -/
def chainOverwrite (k : K) (v : V) : List (Pair K V) → List (Pair K V)
  | [] => []
  | p :: ps => if p.key = k then ⟨p.key, v⟩ :: ps else p :: chainOverwrite k v ps

/-- EHash::insert after the load-factor check (lines 101-114): compute the
bucket index, overwrite in place if the key exists, otherwise prepend a new
pair to the chain and increment numElements. -/
def place (hash : K → Nat) (t : EHash K V) (k : K) (v : V) : EHash K V :=
  let idx := t.hashKey hash k
  let chain := t.buckets.getD idx []
  match chain.find? (keyIs k) with
  | some _ => { t with buckets := t.buckets.set idx (chainOverwrite k v chain) }
  | none =>
      { buckets := t.buckets.set idx (⟨k, v⟩ :: chain),
        numElements := t.numElements + 1 }

/-- The entries EHash::rehash walks (lines 66-73): every bucket of the old
vector in index order, each chain from its head.  List.flatten concatenates
in exactly that order. -/
def pendingEntries (t : EHash K V) : List (Pair K V) :=
  t.buckets.flatten

/-- The state right after `buckets.clear(); buckets.resize(old.size() * 2)`
(lines 62-64): twice as many empty chains; numElements is NOT reset by the
source. -/
def rehashInit (t : EHash K V) : EHash K V :=
  { buckets := List.replicate (t.buckets.length * 2) [], numElements := t.numElements }

/-- The re-insertion loop of EHash::rehash (lines 66-74): fold the given
insert over the pending entries, propagating fuel exhaustion. -/
def rehashGoAux (ins : EHash K V → K → V → Option (EHash K V)) :
    EHash K V → List (Pair K V) → Option (EHash K V)
  | t, [] => some t
  | t, p :: ps =>
    match ins t p.key p.value with
    | none => none
    | some t1 => rehashGoAux ins t1 ps

/-- EHash::insert (lines 93-115) with fuel: if the load factor is exceeded,
rehash (doubling the buckets and re-inserting every old entry with one unit
of fuel less), then run the find/overwrite/prepend body.  Fuel is consumed
only by rehash, so none is returned only if rehashes nest deeper than the
fuel; insertF_total below shows fuelFor is always enough. -/
def insertF (hash : K → Nat) : Nat → EHash K V → K → V → Option (EHash K V)
  | 0, t, k, v => if loadExceeded t then none else some (place hash t k v)
  | f + 1, t, k, v =>
    if loadExceeded t then
      match rehashGoAux (insertF hash f) (rehashInit t) (pendingEntries t) with
      | none => none
      | some t1 => some (place hash t1 k v)
    else some (place hash t k v)

/-- EHash::rehash (lines 60-75) with fuel f for the re-inserting calls. -/
def EHash.rehashF (hash : K → Nat) (f : Nat) (t : EHash K V) : Option (EHash K V) :=
  rehashGoAux (insertF hash f) (rehashInit t) (pendingEntries t)

/-- Total number of entries actually stored across all bucket chains. -/
def entryCount (t : EHash K V) : Nat :=
  (t.buckets.map List.length).sum

/-- A fuel budget proved sufficient for insertF (theorem insertF_total). -/
def fuelFor (t : EHash K V) : Nat :=
  4 * (t.numElements + entryCount t + 4)

/-- EHash::insert as a total function: run insertF at the sufficient fuel.
For any state with at least one bucket the fuel never runs out
(insertF_total), so the getD default is never taken there. -/
def EHash.insert (hash : K → Nat) (t : EHash K V) (k : K) (v : V) : EHash K V :=
  (insertF hash (fuelFor t) t k v).getD t

/-- The value EHash::find (lines 125-131) returns: scan the key's bucket,
null pointer becomes none. -/
def findVal (hash : K → Nat) (t : EHash K V) (k : K) : Option V :=
  ((t.buckets.getD (t.hashKey hash k) []).find? (keyIs k)).map Pair.value

/-- EHash::find (lines 125-131): the body only reads (hashKey plus a chain
scan), so the state component of the result is the input state. -/
def EHash.find (hash : K → Nat) (t : EHash K V) (k : K) : Option V × EHash K V :=
  (findVal hash t k, t)

/-- EHash::remove (lines 141-150): chain removal at the key's bucket; on
success decrement numElements and return true. -/
def EHash.remove (hash : K → Nat) (t : EHash K V) (k : K) : Bool × EHash K V :=
  let idx := t.hashKey hash k
  let r := elistRemove (keyIs k) (t.buckets.getD idx [])
  (r.1,
    { buckets := t.buckets.set idx r.2,
      numElements := if r.1 then t.numElements - 1 else t.numElements })

/-- A public operation of the map: insert(key, value) or remove(key). -/
inductive Op (K V : Type) where
  | ins : K → V → Op K V
  | del : K → Op K V

/-- Apply one operation to the map state. -/
def applyOp (hash : K → Nat) (t : EHash K V) : Op K V → EHash K V
  | Op.ins k v => t.insert hash k v
  | Op.del k => (t.remove hash k).2

/-- Run a sequence of operations on a freshly constructed EHash(n). -/
def run (hash : K → Nat) (n : Nat) (ops : List (Op K V)) : EHash K V :=
  ops.foldl (applyOp hash) (EHash.empty K V n)

/-- The reference semantics of one operation on a partial map. -/
def specApply (m : K → Option V) : Op K V → (K → Option V)
  | Op.ins k v => fun q => if q = k then some v else m q
  | Op.del k => fun q => if q = k then none else m q

/-- The reference semantics of an operation sequence: for each key, the most
recently inserted value that was not subsequently removed. -/
def specRun (ops : List (Op K V)) : K → Option V :=
  ops.foldl specApply (fun _ => none)

/-- The value of the LAST entry of the list carrying the given key (later
re-insertions overwrite earlier ones during a rehash fold). -/
def lastVal (k : K) : List (Pair K V) → Option V
  | [] => none
  | p :: ps =>
    match lastVal k ps with
    | some v => some v
    | none => if p.key = k then some p.value else none

/-- Structural well-formedness of an EHash state: at least one bucket, every
stored pair sits in the bucket selected by its key's hash, and no bucket
holds the same key twice. -/
def WF (hash : K → Nat) (t : EHash K V) : Prop :=
  1 ≤ t.buckets.length ∧
  (∀ i < t.buckets.length,
    ∀ p ∈ t.buckets.getD i [], hash p.key % t.buckets.length = i) ∧
  (∀ i < t.buckets.length, ((t.buckets.getD i []).map Pair.key).Nodup)

/-- The full state invariant: well-formed buckets and a counter that is at
least the number of stored entries (the source's rehash double-counts, so
equality fails; the inequality is what every operation preserves). -/
def Inv (hash : K → Nat) (t : EHash K V) : Prop :=
  WF hash t ∧ entryCount t ≤ t.numElements

/-- Shape facts about one fueled insert: the bucket count gets multiplied by
2^d (d = number of rehash invocations), the stored entries grow by at most
one, and the counter grows by at most 1 plus entryCount+1 per rehash. -/
def InsShape (t t2 : EHash K V) : Prop :=
  ∃ d, t2.buckets.length = t.buckets.length * 2 ^ d ∧
    entryCount t2 ≤ entryCount t + 1 ∧
    t2.numElements ≤ t.numElements + 1 + (entryCount t + 1) * d

/-- Shape facts about the rehash re-insertion fold over n pending entries. -/
def GoShape (t t2 : EHash K V) (n : Nat) : Prop :=
  ∃ d, t2.buckets.length = t.buckets.length * 2 ^ d ∧
    entryCount t2 ≤ entryCount t + n ∧
    t2.numElements ≤ t.numElements + n + (entryCount t + n + 1) * d

/-- All insertF calls at fuel f satisfy InsShape. -/
def InsShapeAll (hash : K → Nat) (f : Nat) : Prop :=
  ∀ (t : EHash K V) (k : K) (v : V) t2,
    insertF hash f t k v = some t2 → InsShape t t2

/-- Fuel f is enough for insertF on states whose future rehash levels are
covered: whenever the load check could fire after d doublings, d+1 more
rehash invocations fit in f. -/
def InsTotal (hash : K → Nat) (f : Nat) : Prop :=
  ∀ (t : EHash K V) (k : K) (v : V), 1 ≤ t.buckets.length →
    (∀ d, 3 * (t.buckets.length * 2 ^ d)
        < 4 * (t.numElements + 1 + (entryCount t + 1) * d) → d + 1 ≤ f) →
    (insertF hash f t k v).isSome

/-- Fuel f is enough for the rehash fold, same reading with the pending
entries counted in. -/
def GoTotal (hash : K → Nat) (f : Nat) : Prop :=
  ∀ (ps : List (Pair K V)) (t : EHash K V), 1 ≤ t.buckets.length →
    (∀ d, 3 * (t.buckets.length * 2 ^ d)
        < 4 * (t.numElements + ps.length + (entryCount t + ps.length + 1) * d) →
      d + 1 ≤ f) →
    (rehashGoAux (insertF hash f) t ps).isSome

/-- Functional correctness of insertF at fuel f on invariant states. -/
def InsOk (hash : K → Nat) (f : Nat) : Prop :=
  ∀ (t : EHash K V) (k : K) (v : V) t2, Inv hash t →
    insertF hash f t k v = some t2 →
    Inv hash t2 ∧
      ∀ q, findVal hash t2 q = if q = k then some v else findVal hash t q

/-- Functional correctness of the rehash fold at fuel f: the fold inserts
the pending entries in order, so each key ends at its last pending value,
and keys without pending entries are looked up in the start state. -/
def GoOk (hash : K → Nat) (f : Nat) : Prop :=
  ∀ (ps : List (Pair K V)) (t : EHash K V) t2, Inv hash t →
    rehashGoAux (insertF hash f) t ps = some t2 →
    Inv hash t2 ∧
      ∀ q, findVal hash t2 q
        = match lastVal q ps with
          | some v => some v
          | none => findVal hash t q

/-- A concrete hash function for concrete states: the identity on Nat,
matching libstdc++'s std::hash for integral types. -/
def idHash : Nat → Nat := fun k => k

/-! ### List-level helper lemmas -/

lemma getD_cons_succ {α : Type} (b : α) (rest : List α) (j : Nat) (d : α) :
    (b :: rest).getD (j + 1) d = rest.getD j d := by
  simp [List.getD_eq_getElem?_getD]

lemma getD_set_self {α : Type} (bs : List α) (i : Nat) (ch d : α)
    (h : i < bs.length) : (bs.set i ch).getD i d = ch := by
  rw [List.getD_eq_getElem?_getD, List.getElem?_set_self (by simpa using h)]
  rfl

lemma getD_set_ne {α : Type} (bs : List α) (i j : Nat) (ch d : α) (h : j ≠ i) :
    (bs.set i ch).getD j d = bs.getD j d := by
  rw [List.getD_eq_getElem?_getD, List.getElem?_set_ne (Ne.symm h),
    ← List.getD_eq_getElem?_getD]

lemma getD_replicate_nil {α : Type} (n i : Nat) :
    (List.replicate n ([] : List α)).getD i [] = [] := by
  rw [List.getD_eq_getElem?_getD, List.getElem?_replicate]
  by_cases h : i < n <;> simp [h]

lemma set_getD_self {α : Type} (bs : List α) (i : Nat) (d : α)
    (h : i < bs.length) : bs.set i (bs.getD i d) = bs := by
  induction bs generalizing i with
  | nil => rfl
  | cons b rest ih =>
    cases i with
    | zero => rfl
    | succ j =>
      have hj : j < rest.length := by simpa using h
      simp only [List.set, getD_cons_succ, List.cons.injEq, true_and]
      exact ih j hj

lemma sum_length_set {α : Type} (bs : List (List α)) (i : Nat) (ch : List α)
    (h : i < bs.length) :
    ((bs.set i ch).map List.length).sum + (bs.getD i []).length
      = (bs.map List.length).sum + ch.length := by
  induction bs generalizing i with
  | nil => simp at h
  | cons b rest ih =>
    cases i with
    | zero => simp [List.getD]; omega
    | succ j =>
      have hj : j < rest.length := by simpa using h
      have hrec := ih j hj
      simp only [List.set, List.map_cons, List.sum_cons, getD_cons_succ]
      omega

lemma getD_length_le {α : Type} (bs : List (List α)) (i : Nat) :
    (bs.getD i []).length ≤ (bs.map List.length).sum := by
  induction bs generalizing i with
  | nil => simp [List.getD]
  | cons b rest ih =>
    cases i with
    | zero => simp [List.getD]
    | succ j =>
      rw [getD_cons_succ]
      exact le_trans (ih j) (by simp)

/-! ### Chain-level lemmas: find?, chainOverwrite, elistRemove, lastVal -/

lemma keyIs_eq_true {k : K} {p : Pair K V} : keyIs k p = true ↔ p.key = k := by
  simp [keyIs]

lemma find?_keyIs_eq_none {k : K} {l : List (Pair K V)} :
    l.find? (keyIs k) = none ↔ ∀ p ∈ l, p.key ≠ k := by
  rw [List.find?_eq_none]
  simp [keyIs]

lemma find?_keyIs_key {k : K} {l : List (Pair K V)} {p : Pair K V}
    (h : l.find? (keyIs k) = some p) : p.key = k ∧ p ∈ l :=
  ⟨keyIs_eq_true.mp (List.find?_some h), List.mem_of_find?_eq_some h⟩

lemma chainOverwrite_map_key (k : K) (v : V) (l : List (Pair K V)) :
    (chainOverwrite k v l).map Pair.key = l.map Pair.key := by
  induction l with
  | nil => rfl
  | cons p ps ih =>
    by_cases h : p.key = k <;> simp [chainOverwrite, h, ih]

lemma chainOverwrite_length (k : K) (v : V) (l : List (Pair K V)) :
    (chainOverwrite k v l).length = l.length := by
  have h1 := congrArg List.length (chainOverwrite_map_key k v l)
  simpa using h1

lemma find?_chainOverwrite_self (k : K) (v : V) (l : List (Pair K V)) :
    ((chainOverwrite k v l).find? (keyIs k)).map Pair.value
      = (l.find? (keyIs k)).map fun _ => v := by
  induction l with
  | nil => rfl
  | cons p ps ih =>
    by_cases h : p.key = k
    · simp [chainOverwrite, h, List.find?_cons, keyIs]
    · simp [chainOverwrite, h, List.find?_cons, keyIs, ih]

lemma find?_chainOverwrite_ne (k q : K) (v : V) (l : List (Pair K V))
    (hne : q ≠ k) :
    (chainOverwrite k v l).find? (keyIs q) = l.find? (keyIs q) := by
  have hkq : ¬k = q := fun he => hne he.symm
  induction l with
  | nil => rfl
  | cons p ps ih =>
    by_cases h : p.key = k
    · simp [chainOverwrite, h, List.find?_cons, keyIs, hkq]
    · by_cases hq : p.key = q <;>
        simp [chainOverwrite, h, List.find?_cons, keyIs, hq, hne, ih]

lemma mem_chainOverwrite (k : K) (v : V) {l : List (Pair K V)} {q : Pair K V}
    (hq : q ∈ chainOverwrite k v l) : ∃ p ∈ l, q.key = p.key := by
  induction l with
  | nil => simp [chainOverwrite] at hq
  | cons p ps ih =>
    by_cases h : p.key = k
    · rw [chainOverwrite, if_pos h] at hq
      rcases List.mem_cons.mp hq with rfl | hmem
      · exact ⟨p, List.mem_cons_self p ps, rfl⟩
      · exact ⟨q, List.mem_cons_of_mem p hmem, rfl⟩
    · rw [chainOverwrite, if_neg h] at hq
      rcases List.mem_cons.mp hq with rfl | hmem
      · exact ⟨q, List.mem_cons_self q ps, rfl⟩
      · rcases ih hmem with ⟨p2, hp2, hk2⟩
        exact ⟨p2, List.mem_cons_of_mem p hp2, hk2⟩

lemma elistRemove_sublist {T : Type} (pr : T → Bool) (l : List T) :
    (elistRemove pr l).2.Sublist l := by
  induction l with
  | nil => simp [elistRemove]
  | cons x xs ih =>
    by_cases h : pr x
    · simp only [elistRemove, if_pos h]
      exact List.Sublist.cons x (List.Sublist.refl xs)
    · simp only [elistRemove, if_neg h]
      exact List.Sublist.cons₂ x ih

lemma elistRemove_false {T : Type} (pr : T → Bool) (l : List T)
    (h : (elistRemove pr l).1 = false) : (elistRemove pr l).2 = l := by
  induction l with
  | nil => rfl
  | cons x xs ih =>
    by_cases hx : pr x
    · simp [elistRemove, hx] at h
    · simp only [elistRemove, if_neg hx] at h ⊢
      rw [ih h]

lemma elistRemove_fst (k : K) (l : List (Pair K V)) :
    (elistRemove (keyIs k) l).1 = (l.find? (keyIs k)).isSome := by
  induction l with
  | nil => rfl
  | cons p ps ih =>
    cases h : keyIs k p with
    | true => simp [elistRemove, List.find?_cons, h]
    | false => simp [elistRemove, List.find?_cons, h, ih]

lemma elistRemove_length_true {T : Type} (pr : T → Bool) (l : List T)
    (h : (elistRemove pr l).1 = true) :
    (elistRemove pr l).2.length + 1 = l.length := by
  induction l with
  | nil => simp [elistRemove] at h
  | cons x xs ih =>
    by_cases hx : pr x
    · simp [elistRemove, hx]
    · simp only [elistRemove, if_neg hx] at h ⊢
      simpa using ih h

lemma elistRemove_find?_self (k : K) (l : List (Pair K V))
    (hnd : (l.map Pair.key).Nodup) :
    ((elistRemove (keyIs k) l).2).find? (keyIs k) = none := by
  induction l with
  | nil => rfl
  | cons p ps ih =>
    rw [List.map_cons, List.nodup_cons] at hnd
    cases hb : keyIs k p with
    | true =>
      simp only [elistRemove, hb, if_true]
      rw [find?_keyIs_eq_none]
      intro q hq hqk
      have hmem : q.key ∈ List.map Pair.key ps := List.mem_map_of_mem Pair.key hq
      rw [hqk, ← keyIs_eq_true.mp hb] at hmem
      exact hnd.1 hmem
    | false =>
      simp only [elistRemove, hb, Bool.false_eq_true, if_false]
      rw [List.find?_cons, hb]
      exact ih hnd.2

lemma elistRemove_find?_ne (k q : K) (l : List (Pair K V)) (hne : q ≠ k) :
    ((elistRemove (keyIs k) l).2).find? (keyIs q) = l.find? (keyIs q) := by
  induction l with
  | nil => rfl
  | cons p ps ih =>
    cases hb : keyIs k p with
    | true =>
      have hq : keyIs q p = false := by
        simp only [keyIs, decide_eq_false_iff_not]
        rw [keyIs_eq_true.mp hb]
        exact fun he => hne he.symm
      simp only [elistRemove, hb, if_true]
      rw [List.find?_cons, hq]
    | false =>
      simp only [elistRemove, hb, Bool.false_eq_true, if_false]
      rw [List.find?_cons, List.find?_cons]
      cases hq : keyIs q p with
      | true => rfl
      | false => simpa using ih

lemma lastVal_eq_none (q : K) (l : List (Pair K V))
    (h : ∀ p ∈ l, p.key ≠ q) : lastVal q l = none := by
  induction l with
  | nil => rfl
  | cons p ps ih =>
    rw [lastVal, ih fun r hr => h r (List.mem_cons_of_mem p hr)]
    simp [h p (List.mem_cons_self p ps)]

lemma lastVal_append (q : K) (xs ys : List (Pair K V)) :
    lastVal q (xs ++ ys)
      = match lastVal q ys with
        | some v => some v
        | none => lastVal q xs := by
  induction xs with
  | nil =>
    simp only [List.nil_append, lastVal]
    cases lastVal q ys <;> rfl
  | cons p ps ih =>
    rw [List.cons_append, lastVal, ih, lastVal]
    cases lastVal q ys <;> cases lastVal q ps <;> rfl

lemma lastVal_eq_find? (q : K) (l : List (Pair K V))
    (hnd : (l.map Pair.key).Nodup) :
    lastVal q l = (l.find? (keyIs q)).map Pair.value := by
  induction l with
  | nil => rfl
  | cons p ps ih =>
    rw [List.map_cons, List.nodup_cons] at hnd
    rw [lastVal, ih hnd.2, List.find?_cons]
    by_cases h : p.key = q
    · have hnone : ps.find? (keyIs q) = none := by
        rw [find?_keyIs_eq_none]
        intro r hr hrq
        have hmem : r.key ∈ List.map Pair.key ps := List.mem_map_of_mem Pair.key hr
        rw [hrq, ← h] at hmem
        exact hnd.1 hmem
      rw [hnone, keyIs_eq_true.mpr h]
      simp [h]
    · rw [show keyIs q p = false by simp [keyIs, h]]
      cases hfind : ps.find? (keyIs q) <;> simp [h]

/-! ### Entries across buckets: flatten in bucket order -/

lemma lastVal_flatten_none (hash : K → Nat) (L : Nat) (q : K)
    (bs : List (List (Pair K V))) (o : Nat)
    (hidx : ∀ j, ∀ p ∈ bs.getD j [], hash p.key % L = o + j)
    (hlt : hash q % L < o) :
    lastVal q bs.flatten = none := by
  induction bs generalizing o with
  | nil => rfl
  | cons b rest ih =>
    rw [List.flatten_cons, lastVal_append]
    have hb : lastVal q b = none := by
      apply lastVal_eq_none
      intro p hp hpq
      have hj := hidx 0 p hp
      rw [hpq] at hj
      omega
    have hrest : lastVal q rest.flatten = none := by
      apply ih (o + 1)
      · intro j p hp
        have hj := hidx (j + 1) p (by rw [getD_cons_succ]; exact hp)
        omega
      · omega
    rw [hrest, hb]

lemma lastVal_flatten_getD (hash : K → Nat) (L : Nat) (q : K)
    (bs : List (List (Pair K V))) (o : Nat)
    (hidx : ∀ j, ∀ p ∈ bs.getD j [], hash p.key % L = o + j)
    (hge : o ≤ hash q % L) :
    lastVal q bs.flatten = lastVal q (bs.getD (hash q % L - o) []) := by
  induction bs generalizing o with
  | nil => simp [List.getD, lastVal]
  | cons b rest ih =>
    rw [List.flatten_cons, lastVal_append]
    by_cases he : hash q % L = o
    · have hrest : lastVal q rest.flatten = none := by
        apply lastVal_flatten_none hash L q rest (o + 1)
        · intro j p hp
          have hj := hidx (j + 1) p (by rw [getD_cons_succ]; exact hp)
          omega
        · omega
      rw [hrest]
      have h0 : hash q % L - o = 0 := by omega
      rw [h0]
      rfl
    · have hb : lastVal q b = none := by
        apply lastVal_eq_none
        intro p hp hpq
        have hj := hidx 0 p hp
        rw [hpq] at hj
        omega
      have h1 : o + 1 ≤ hash q % L := by omega
      rw [ih (o + 1) (fun j p hp => by
        have hj := hidx (j + 1) p (by rw [getD_cons_succ]; exact hp)
        omega) h1]
      rw [hb]
      have hsub : hash q % L - o = (hash q % L - (o + 1)) + 1 := by omega
      rw [hsub, getD_cons_succ]
      cases lastVal q (rest.getD (hash q % L - (o + 1)) []) <;> rfl

lemma lastVal_pending (hash : K → Nat) (t : EHash K V) (hwf : WF hash t)
    (q : K) : lastVal q (pendingEntries t) = findVal hash t q := by
  obtain ⟨hpos, hidx, hnd⟩ := hwf
  have hm : hash q % t.buckets.length < t.buckets.length := Nat.mod_lt _ hpos
  have hidx2 : ∀ j, ∀ p ∈ t.buckets.getD j [],
      hash p.key % t.buckets.length = 0 + j := by
    intro j p hp
    by_cases hj : j < t.buckets.length
    · rw [Nat.zero_add]
      exact hidx j hj p hp
    · rw [List.getD_eq_default _ _ (by omega)] at hp
      simp at hp
  rw [pendingEntries,
    lastVal_flatten_getD hash t.buckets.length q t.buckets 0 hidx2 (Nat.zero_le _),
    Nat.sub_zero, lastVal_eq_find? q _ (hnd _ hm)]
  rfl

/-! ### Lemmas about place (the non-resizing body of insert) -/

lemma place_buckets_length (hash : K → Nat) (t : EHash K V) (k : K) (v : V) :
    (place hash t k v).buckets.length = t.buckets.length := by
  simp only [place]
  cases hf : (t.buckets.getD (t.hashKey hash k) []).find? (keyIs k) <;>
    simp [hf, List.length_set]

lemma place_num_le (hash : K → Nat) (t : EHash K V) (k : K) (v : V) :
    (place hash t k v).numElements ≤ t.numElements + 1 := by
  simp only [place]
  cases hf : (t.buckets.getD (t.hashKey hash k) []).find? (keyIs k) <;>
    simp [hf]

lemma place_counts (hash : K → Nat) (t : EHash K V) (k : K) (v : V)
    (hpos : 1 ≤ t.buckets.length) :
    entryCount (place hash t k v) + t.numElements
      = entryCount t + (place hash t k v).numElements := by
  have hidx : t.hashKey hash k < t.buckets.length := Nat.mod_lt _ hpos
  simp only [place, entryCount]
  cases hf : (t.buckets.getD (t.hashKey hash k) []).find? (keyIs k) with
  | none =>
    simp only [hf]
    have hs := sum_length_set t.buckets (t.hashKey hash k)
      (⟨k, v⟩ :: t.buckets.getD (t.hashKey hash k) []) hidx
    simp only [List.length_cons] at hs
    omega
  | some p =>
    simp only [hf]
    have hs := sum_length_set t.buckets (t.hashKey hash k)
      (chainOverwrite k v (t.buckets.getD (t.hashKey hash k) [])) hidx
    rw [chainOverwrite_length] at hs
    omega

lemma place_findVal (hash : K → Nat) (t : EHash K V) (k : K) (v : V)
    (hpos : 1 ≤ t.buckets.length) (q : K) :
    findVal hash (place hash t k v) q
      = if q = k then some v else findVal hash t q := by
  have hidx : t.hashKey hash k < t.buckets.length := Nat.mod_lt _ hpos
  have hlen : (place hash t k v).buckets.length = t.buckets.length :=
    place_buckets_length hash t k v
  have hkq : (place hash t k v).hashKey hash q = t.hashKey hash q := by
    rw [EHash.hashKey, EHash.hashKey, hlen]
  rw [findVal, hkq]
  simp only [place]
  cases hf : (t.buckets.getD (t.hashKey hash k) []).find? (keyIs k) with
  | some p =>
    simp only [hf]
    by_cases hq : q = k
    · subst hq
      rw [getD_set_self _ _ _ _ hidx, if_pos rfl, find?_chainOverwrite_self, hf]
      rfl
    · rw [if_neg hq]
      by_cases hqi : t.hashKey hash q = t.hashKey hash k
      · rw [hqi, getD_set_self _ _ _ _ hidx, find?_chainOverwrite_ne k q v _ hq,
          findVal, hqi]
      · rw [getD_set_ne _ _ _ _ _ hqi, findVal]
  | none =>
    simp only [hf]
    by_cases hq : q = k
    · subst hq
      rw [getD_set_self _ _ _ _ hidx, if_pos rfl, List.find?_cons,
        show keyIs q (⟨q, v⟩ : Pair K V) = true by simp [keyIs]]
      rfl
    · rw [if_neg hq]
      by_cases hqi : t.hashKey hash q = t.hashKey hash k
      · rw [hqi, getD_set_self _ _ _ _ hidx, List.find?_cons,
          show keyIs q (⟨k, v⟩ : Pair K V) = false by
            simp only [keyIs, decide_eq_false_iff_not]
            exact fun he => hq he.symm,
          findVal, hqi]
      · rw [getD_set_ne _ _ _ _ _ hqi, findVal]

lemma place_WF (hash : K → Nat) (t : EHash K V) (k : K) (v : V)
    (hwf : WF hash t) : WF hash (place hash t k v) := by
  obtain ⟨hpos, hidx, hnd⟩ := hwf
  have hik : t.hashKey hash k < t.buckets.length := Nat.mod_lt _ hpos
  have hlen : (place hash t k v).buckets.length = t.buckets.length :=
    place_buckets_length hash t k v
  refine ⟨by rw [hlen]; exact hpos, ?_, ?_⟩
  · intro i hi p hp
    rw [hlen] at hi
    rw [hlen]
    simp only [place] at hp
    cases hf : (t.buckets.getD (t.hashKey hash k) []).find? (keyIs k) with
    | some r =>
      rw [hf] at hp
      simp only at hp
      by_cases hii : i = t.hashKey hash k
      · subst hii
        rw [getD_set_self _ _ _ _ hik] at hp
        rcases mem_chainOverwrite k v hp with ⟨p2, hp2, hkey⟩
        rw [hkey]
        exact hidx _ hi p2 hp2
      · rw [getD_set_ne _ _ _ _ _ hii] at hp
        exact hidx _ hi p hp
    | none =>
      rw [hf] at hp
      simp only at hp
      by_cases hii : i = t.hashKey hash k
      · subst hii
        rw [getD_set_self _ _ _ _ hik] at hp
        rcases List.mem_cons.mp hp with rfl | hmem
        · rfl
        · exact hidx _ hi p hmem
      · rw [getD_set_ne _ _ _ _ _ hii] at hp
        exact hidx _ hi p hp
  · intro i hi
    rw [hlen] at hi
    simp only [place]
    cases hf : (t.buckets.getD (t.hashKey hash k) []).find? (keyIs k) with
    | some r =>
      simp only [hf]
      by_cases hii : i = t.hashKey hash k
      · subst hii
        rw [getD_set_self _ _ _ _ hik, chainOverwrite_map_key]
        exact hnd _ hi
      · rw [getD_set_ne _ _ _ _ _ hii]
        exact hnd _ hi
    | none =>
      simp only [hf]
      by_cases hii : i = t.hashKey hash k
      · subst hii
        rw [getD_set_self _ _ _ _ hik, List.map_cons, List.nodup_cons]
        refine ⟨?_, hnd _ hi⟩
        intro hmem
        rcases List.mem_map.mp hmem with ⟨p2, hp2, hkey⟩
        have := (find?_keyIs_eq_none.mp hf) p2 hp2
        exact this hkey
      · rw [getD_set_ne _ _ _ _ _ hii]
        exact hnd _ hi

lemma place_Inv (hash : K → Nat) (t : EHash K V) (k : K) (v : V)
    (hinv : Inv hash t) : Inv hash (place hash t k v) := by
  refine ⟨place_WF hash t k v hinv.1, ?_⟩
  have hc := place_counts hash t k v hinv.1.1
  have hn := place_num_le hash t k v
  have he := hinv.2
  omega

lemma entryCount_place_le (hash : K → Nat) (t : EHash K V) (k : K) (v : V) :
    entryCount (place hash t k v) ≤ entryCount t + 1 := by
  by_cases hpos : 1 ≤ t.buckets.length
  · have hc := place_counts hash t k v hpos
    have hn := place_num_le hash t k v
    omega
  · have hnil : t.buckets = [] :=
      List.eq_nil_of_length_eq_zero (by omega)
    simp [place, hnil, entryCount, EHash.hashKey, List.getD]

/-! ### insertF equations and rehash basics -/

lemma insertF_not_fired (hash : K → Nat) (f : Nat) (t : EHash K V) (k : K)
    (v : V) (h : ¬loadExceeded t) :
    insertF hash f t k v = some (place hash t k v) := by
  cases f <;> simp [insertF, h]

lemma rehashInit_num (t : EHash K V) :
    (rehashInit t).numElements = t.numElements := rfl

/-! ### Shape of the fueled insert: bucket growth and counter bounds -/

lemma place_shape (hash : K → Nat) (t : EHash K V) (k : K) (v : V) :
    InsShape t (place hash t k v) :=
  ⟨0, by rw [pow_zero, Nat.mul_one]; exact place_buckets_length hash t k v,
    entryCount_place_le hash t k v,
    by have := place_num_le hash t k v; omega⟩

lemma rehashInit_length (t : EHash K V) :
    (rehashInit t).buckets.length = t.buckets.length * 2 := by
  simp [rehashInit]

lemma rehashInit_entryCount (t : EHash K V) : entryCount (rehashInit t) = 0 := by
  simp only [entryCount, rehashInit, List.map_replicate, List.length_nil]
  induction t.buckets.length * 2 with
  | zero => rfl
  | succ n ih => rw [List.replicate_succ, List.sum_cons, ih]

lemma pendingEntries_length (t : EHash K V) :
    (pendingEntries t).length = entryCount t := by
  simp [pendingEntries, entryCount, List.length_flatten]

lemma goShape_of_insShape (hash : K → Nat) (f : Nat)
    (hins : InsShapeAll (K := K) (V := V) hash f) :
    ∀ (ps : List (Pair K V)) (t t2 : EHash K V),
      rehashGoAux (insertF hash f) t ps = some t2 → GoShape t t2 ps.length := by
  intro ps
  induction ps with
  | nil =>
    intro t t2 h
    rw [rehashGoAux] at h
    cases h
    exact ⟨0, by rw [pow_zero, Nat.mul_one], by simp, by simp⟩
  | cons p rest ih =>
    intro t t2 h
    rw [rehashGoAux] at h
    cases hi : insertF hash f t p.key p.value with
    | none => rw [hi] at h; cases h
    | some t1 =>
      rw [hi] at h
      obtain ⟨d1, hl1, he1, hc1⟩ := hins t p.key p.value t1 hi
      obtain ⟨d2, hl2, he2, hc2⟩ := ih t1 t2 h
      refine ⟨d1 + d2, ?_, ?_, ?_⟩
      · rw [hl2, hl1, pow_add, Nat.mul_assoc]
      · rw [List.length_cons]
        omega
      · rw [List.length_cons]
        have hm1 : (entryCount t + 1) * d1
            ≤ (entryCount t + rest.length + 2) * d1 :=
          Nat.mul_le_mul_right d1 (by omega)
        have hm2 : (entryCount t1 + rest.length + 1) * d2
            ≤ (entryCount t + rest.length + 2) * d2 :=
          Nat.mul_le_mul_right d2 (by omega)
        have hdist : (entryCount t + rest.length + 2) * (d1 + d2)
            = (entryCount t + rest.length + 2) * d1
              + (entryCount t + rest.length + 2) * d2 := by ring
        have hgoal : t2.numElements ≤ t.numElements + (rest.length + 1)
            + (entryCount t + (rest.length + 1) + 1) * (d1 + d2) := by
          have hx : entryCount t + (rest.length + 1) + 1
              = entryCount t + rest.length + 2 := by omega
          rw [hx, hdist]
          omega
        omega

lemma insShapeAll (hash : K → Nat) :
    ∀ f, InsShapeAll (K := K) (V := V) hash f := by
  intro f
  induction f with
  | zero =>
    intro t k v t2 h
    by_cases hfire : loadExceeded t
    · rw [insertF, if_pos hfire] at h
      cases h
    · rw [insertF_not_fired hash 0 t k v hfire] at h
      cases h
      exact place_shape hash t k v
  | succ f ihf =>
    intro t k v t2 h
    by_cases hfire : loadExceeded t
    · rw [insertF, if_pos hfire] at h
      cases hg : rehashGoAux (insertF hash f) (rehashInit t) (pendingEntries t) with
      | none => rw [hg] at h; cases h
      | some t1 =>
        rw [hg] at h
        cases h
        obtain ⟨d2, hl2, he2, hc2⟩ := goShape_of_insShape hash f ihf _ _ _ hg
        rw [rehashInit_length] at hl2
        rw [rehashInit_entryCount] at he2 hc2
        rw [rehashInit_num] at hc2
        rw [pendingEntries_length] at he2 hc2
        have hlp := place_buckets_length hash t1 k v
        have hep := entryCount_place_le hash t1 k v
        have hcp := place_num_le hash t1 k v
        refine ⟨d2 + 1, ?_, by omega, ?_⟩
        · rw [hlp, hl2, pow_succ]
          ring
        · have hdist : (entryCount t + 1) * (d2 + 1)
              = (entryCount t + 1) * d2 + (entryCount t + 1) := by ring
          rw [hdist]
          have hm : (0 + entryCount t + 1) * d2 = (entryCount t + 1) * d2 := by
            ring
          rw [hm] at hc2
          omega
    · rw [insertF_not_fired hash (f + 1) t k v hfire] at h
      cases h
      exact place_shape hash t k v

/-! ### Sufficiency of the fuel -/

lemma goTotal_of (hash : K → Nat) (f : Nat)
    (hins : InsTotal (K := K) (V := V) hash f) :
    GoTotal (K := K) (V := V) hash f := by
  intro ps
  induction ps with
  | nil =>
    intro t hpos hhyp
    rw [rehashGoAux]
    rfl
  | cons p rest ih =>
    intro t hpos hhyp
    have h1 : (insertF hash f t p.key p.value).isSome := by
      apply hins t p.key p.value hpos
      intro d hd
      apply hhyp d
      rw [List.length_cons]
      have hm : (entryCount t + 1) * d
          ≤ (entryCount t + (rest.length + 1) + 1) * d :=
        Nat.mul_le_mul_right d (by omega)
      linarith
    obtain ⟨t1, ht1⟩ := Option.isSome_iff_exists.mp h1
    rw [rehashGoAux, ht1]
    obtain ⟨d1, hl1, he1, hc1⟩ := insShapeAll hash f t p.key p.value t1 ht1
    apply ih t1
    · rw [hl1]
      exact Nat.mul_pos hpos (pow_pos (by norm_num) d1)
    · intro d hd
      have hlen : t.buckets.length * 2 ^ (d1 + d)
          = t1.buckets.length * 2 ^ d := by
        rw [hl1, pow_add, Nat.mul_assoc]
      have hkey : 3 * (t.buckets.length * 2 ^ (d1 + d))
          < 4 * (t.numElements + (p :: rest).length
              + (entryCount t + (p :: rest).length + 1) * (d1 + d)) := by
        rw [hlen, List.length_cons]
        have hm1 : (entryCount t + 1) * d1
            ≤ (entryCount t + (rest.length + 1) + 1) * d1 :=
          Nat.mul_le_mul_right d1 (by omega)
        have hm2 : (entryCount t1 + rest.length + 1) * d
            ≤ (entryCount t + (rest.length + 1) + 1) * d :=
          Nat.mul_le_mul_right d (by omega)
        have hdist : (entryCount t + (rest.length + 1) + 1) * (d1 + d)
            = (entryCount t + (rest.length + 1) + 1) * d1
              + (entryCount t + (rest.length + 1) + 1) * d := by ring
        linarith
      have := hhyp (d1 + d) hkey
      omega

lemma insTotal (hash : K → Nat) : ∀ f, InsTotal (K := K) (V := V) hash f := by
  intro f
  induction f with
  | zero =>
    intro t k v hpos hhyp
    by_cases hfire : loadExceeded t
    · exfalso
      have hfire2 : 3 * t.buckets.length < 4 * t.numElements := hfire
      have h0 := hhyp 0 (by
        rw [pow_zero, Nat.mul_one, Nat.mul_zero]
        omega)
      omega
    · rw [insertF_not_fired hash 0 t k v hfire]
      rfl
  | succ f ihf =>
    intro t k v hpos hhyp
    by_cases hfire : loadExceeded t
    · have hgo := goTotal_of hash f ihf
      have h1 : (rehashGoAux (insertF hash f) (rehashInit t)
          (pendingEntries t)).isSome := by
        apply hgo (pendingEntries t) (rehashInit t)
        · rw [rehashInit_length]
          omega
        · intro d hd
          rw [rehashInit_length, rehashInit_num, rehashInit_entryCount,
            pendingEntries_length] at hd
          have h2 := hhyp (d + 1) (by
            have hlen : t.buckets.length * 2 ^ (d + 1)
                = t.buckets.length * 2 * 2 ^ d := by
              rw [pow_succ]
              ring
            rw [hlen]
            have hdist : (entryCount t + 1) * (d + 1)
                = (entryCount t + 1) * d + (entryCount t + 1) := by ring
            rw [hdist]
            have hz : (0 + entryCount t + 1) * d = (entryCount t + 1) * d := by
              ring
            rw [hz] at hd
            linarith)
          omega
      obtain ⟨t1, ht1⟩ := Option.isSome_iff_exists.mp h1
      rw [insertF, if_pos hfire, ht1]
      rfl
    · rw [insertF_not_fired hash (f + 1) t k v hfire]
      rfl

lemma helper_pow (a b : Nat) :
    ∀ d, 4 * (a + b + 4) ≤ d → 4 * (a + 1 + (b + 1) * d) ≤ 3 * 2 ^ d := by
  intro d
  induction d with
  | zero => intro h; omega
  | succ d ihd =>
    intro h
    by_cases hd : 4 * (a + b + 4) ≤ d
    · have hstep := ihd hd
      have h1 : d < 2 ^ d := Nat.lt_two_pow d
      have hb : 4 * (b + 1) ≤ 3 * 2 ^ d := by
        have h2 : 4 * (b + 1) ≤ 4 * (a + b + 4) := by omega
        linarith
      have hdist : (b + 1) * (d + 1) = (b + 1) * d + (b + 1) := by ring
      have hp : 2 ^ (d + 1) = 2 * 2 ^ d := by rw [pow_succ]; ring
      rw [hdist, hp]
      linarith
    · have heq : d + 1 = 4 * (a + b + 4) := by omega
      have hq4 : 4 ≤ a + b + 4 := by omega
      have hqq : a + b + 4 < 2 ^ (a + b + 4) := Nat.lt_two_pow _
      calc 4 * (a + 1 + (b + 1) * (d + 1))
          = 4 * (a + 1) + 4 * ((b + 1) * (4 * (a + b + 4))) := by
            rw [heq]
            ring
        _ ≤ 4 * (a + b + 4) + 4 * ((a + b + 4) * (4 * (a + b + 4))) := by
            have h3 : (b + 1) * (4 * (a + b + 4))
                ≤ (a + b + 4) * (4 * (a + b + 4)) :=
              Nat.mul_le_mul_right _ (by omega)
            linarith
        _ ≤ 20 * ((a + b + 4) * (a + b + 4)) := by
            have h4 : a + b + 4 ≤ (a + b + 4) * (a + b + 4) :=
              Nat.le_mul_of_pos_left _ (by omega)
            have h5 : (a + b + 4) * (4 * (a + b + 4))
                = 4 * ((a + b + 4) * (a + b + 4)) := by ring
            linarith
        _ ≤ 20 * (2 ^ (a + b + 4) * 2 ^ (a + b + 4)) := by
            have h6 : (a + b + 4) * (a + b + 4)
                ≤ 2 ^ (a + b + 4) * 2 ^ (a + b + 4) :=
              Nat.mul_le_mul hqq.le hqq.le
            linarith
        _ ≤ 2 ^ 5 * (2 ^ (a + b + 4) * 2 ^ (a + b + 4)) := by
            have h7 : (0:Nat) ≤ 2 ^ (a + b + 4) * 2 ^ (a + b + 4) :=
              Nat.zero_le _
            have h8 : (20:Nat) ≤ 2 ^ 5 := by norm_num
            exact Nat.mul_le_mul_right _ h8
        _ = 2 ^ ((a + b + 4) + (a + b + 4) + 5) := by
            rw [pow_add, pow_add]
            ring
        _ ≤ 2 ^ (4 * (a + b + 4)) :=
            Nat.pow_le_pow_right (by norm_num) (by omega)
        _ = 2 ^ (d + 1) := by rw [heq]
        _ ≤ 3 * 2 ^ (d + 1) := by
            have := Nat.zero_le (2 ^ (d + 1))
            linarith

lemma insertF_total (hash : K → Nat) (t : EHash K V) (k : K) (v : V)
    (hpos : 1 ≤ t.buckets.length) :
    (insertF hash (fuelFor t) t k v).isSome := by
  apply insTotal hash (fuelFor t) t k v hpos
  intro d hd
  by_cases hle : d + 1 ≤ fuelFor t
  · exact hle
  · exfalso
    have hge : 4 * (t.numElements + entryCount t + 4) ≤ d := by
      have : fuelFor t ≤ d := by omega
      rw [fuelFor] at this
      omega
    have hh := helper_pow t.numElements (entryCount t) d hge
    have hs : 3 * 2 ^ d ≤ 3 * (t.buckets.length * 2 ^ d) := by
      have h9 : 2 ^ d ≤ t.buckets.length * 2 ^ d :=
        Nat.le_mul_of_pos_left _ (by omega)
      linarith
    linarith

lemma insert_eq_insertF (hash : K → Nat) (t : EHash K V) (k : K) (v : V)
    (hpos : 1 ≤ t.buckets.length) :
    insertF hash (fuelFor t) t k v = some (t.insert hash k v) := by
  obtain ⟨t2, h2⟩ := Option.isSome_iff_exists.mp (insertF_total hash t k v hpos)
  rw [EHash.insert, h2]
  rfl

lemma insert_not_fired (hash : K → Nat) (t : EHash K V) (k : K) (v : V)
    (h : ¬loadExceeded t) : t.insert hash k v = place hash t k v := by
  rw [EHash.insert, insertF_not_fired hash (fuelFor t) t k v h]
  rfl

/-! ### Functional correctness of insert on invariant states -/

lemma sum_map_length_replicate {α : Type} (n : Nat) :
    ((List.replicate n ([] : List α)).map List.length).sum = 0 := by
  induction n with
  | zero => rfl
  | succ m ih => rw [List.replicate_succ, List.map_cons, List.sum_cons, ih]; rfl

lemma rehashInit_WF (hash : K → Nat) (t : EHash K V)
    (hpos : 1 ≤ t.buckets.length) : WF hash (rehashInit t) := by
  have hb : (rehashInit t).buckets = List.replicate (t.buckets.length * 2) [] :=
    rfl
  refine ⟨by rw [rehashInit_length]; omega, ?_, ?_⟩
  · intro i hi p hp
    rw [hb, getD_replicate_nil] at hp
    simp at hp
  · intro i hi
    rw [hb, getD_replicate_nil]
    simp

lemma rehashInit_Inv (hash : K → Nat) (t : EHash K V)
    (hpos : 1 ≤ t.buckets.length) : Inv hash (rehashInit t) :=
  ⟨rehashInit_WF hash t hpos, by rw [rehashInit_entryCount]; omega⟩

lemma rehashInit_findVal (hash : K → Nat) (t : EHash K V) (q : K) :
    findVal hash (rehashInit t) q = none := by
  have hb : (rehashInit t).buckets = List.replicate (t.buckets.length * 2) [] :=
    rfl
  rw [findVal, hb, getD_replicate_nil]
  rfl

lemma goOk_of (hash : K → Nat) (f : Nat)
    (hins : InsOk (K := K) (V := V) hash f) : GoOk (K := K) (V := V) hash f := by
  intro ps
  induction ps with
  | nil =>
    intro t t2 hinv h
    rw [rehashGoAux] at h
    cases h
    exact ⟨hinv, fun q => rfl⟩
  | cons p rest ih =>
    intro t t2 hinv h
    rw [rehashGoAux] at h
    cases hi : insertF hash f t p.key p.value with
    | none => rw [hi] at h; cases h
    | some t1 =>
      rw [hi] at h
      obtain ⟨hinv1, hfv1⟩ := hins t p.key p.value t1 hinv hi
      obtain ⟨hinv2, hfv2⟩ := ih t1 t2 hinv1 h
      refine ⟨hinv2, fun q => ?_⟩
      rw [hfv2 q]
      show _ = match lastVal q (p :: rest) with
        | some v => some v
        | none => findVal hash t q
      rw [lastVal]
      cases hrest : lastVal q rest with
      | some w => rfl
      | none =>
        simp only
        rw [hfv1 q]
        by_cases hq : p.key = q
        · rw [if_pos (by rw [hq]), if_pos hq]
        · rw [if_neg (fun he => hq he.symm), if_neg hq]

lemma insOk (hash : K → Nat) : ∀ f, InsOk (K := K) (V := V) hash f := by
  intro f
  induction f with
  | zero =>
    intro t k v t2 hinv h
    by_cases hfire : loadExceeded t
    · rw [insertF, if_pos hfire] at h
      cases h
    · rw [insertF_not_fired hash 0 t k v hfire] at h
      cases h
      exact ⟨place_Inv hash t k v hinv, place_findVal hash t k v hinv.1.1⟩
  | succ f ihf =>
    intro t k v t2 hinv h
    by_cases hfire : loadExceeded t
    · rw [insertF, if_pos hfire] at h
      cases hg : rehashGoAux (insertF hash f) (rehashInit t)
          (pendingEntries t) with
      | none => rw [hg] at h; cases h
      | some t1 =>
        rw [hg] at h
        cases h
        have hinvI : Inv hash (rehashInit t) := rehashInit_Inv hash t hinv.1.1
        obtain ⟨hinv1, hfv1⟩ :=
          goOk_of hash f ihf (pendingEntries t) (rehashInit t) t1 hinvI hg
        have hfv1e : ∀ q, findVal hash t1 q = findVal hash t q := by
          intro q
          rw [hfv1 q, rehashInit_findVal, lastVal_pending hash t hinv.1 q]
          cases findVal hash t q <;> rfl
        refine ⟨place_Inv hash t1 k v hinv1, fun q => ?_⟩
        rw [place_findVal hash t1 k v hinv1.1.1 q]
        by_cases hq : q = k
        · rw [if_pos hq, if_pos hq]
        · rw [if_neg hq, if_neg hq, hfv1e q]
    · rw [insertF_not_fired hash (f + 1) t k v hfire] at h
      cases h
      exact ⟨place_Inv hash t k v hinv, place_findVal hash t k v hinv.1.1⟩

lemma insert_Inv_findVal (hash : K → Nat) (t : EHash K V) (k : K) (v : V)
    (hinv : Inv hash t) :
    Inv hash (t.insert hash k v) ∧
      ∀ q, findVal hash (t.insert hash k v) q
        = if q = k then some v else findVal hash t q :=
  insOk hash (fuelFor t) t k v _ hinv (insert_eq_insertF hash t k v hinv.1.1)

/-! ### Lemmas about remove -/

lemma remove_snd_buckets_length (hash : K → Nat) (t : EHash K V) (k : K) :
    ((t.remove hash k).2).buckets.length = t.buckets.length := by
  simp [EHash.remove, List.length_set]

lemma remove_fst (hash : K → Nat) (t : EHash K V) (k : K) :
    (t.remove hash k).1 = (findVal hash t k).isSome := by
  simp only [EHash.remove, findVal]
  rw [elistRemove_fst]
  cases (t.buckets.getD (t.hashKey hash k) []).find? (keyIs k) <;> rfl

lemma remove_Inv_findVal (hash : K → Nat) (t : EHash K V) (k : K)
    (hinv : Inv hash t) :
    Inv hash (t.remove hash k).2 ∧
      (∀ q, findVal hash (t.remove hash k).2 q
        = if q = k then none else findVal hash t q) ∧
      ((t.remove hash k).1 = true →
        (t.remove hash k).2.numElements + 1 = t.numElements) ∧
      ((t.remove hash k).1 = false → (t.remove hash k).2 = t) := by
  obtain ⟨⟨hpos, hidx, hnd⟩, hec⟩ := hinv
  have hik : t.hashKey hash k < t.buckets.length := Nat.mod_lt _ hpos
  cases hr : (elistRemove (keyIs k) (t.buckets.getD (t.hashKey hash k) [])).1 with
  | false =>
    have hsame : (t.remove hash k).2 = t := by
      obtain ⟨bs, c⟩ := t
      simp only [EHash.remove] at hr ⊢
      rw [hr, elistRemove_false _ _ hr, set_getD_self _ _ _ hik, if_neg (by simp)]
    have hknone : findVal hash t k = none := by
      have hfst := remove_fst hash t k
      simp only [EHash.remove] at hfst
      rw [hr] at hfst
      cases hfv : findVal hash t k
      · rfl
      · rw [hfv] at hfst; cases hfst
    refine ⟨by rw [hsame]; exact ⟨⟨hpos, hidx, hnd⟩, hec⟩, ?_, ?_, fun _ => hsame⟩
    · intro q
      rw [hsame]
      by_cases hq : q = k
      · rw [if_pos hq, hq, hknone]
      · rw [if_neg hq]
    · intro habs
      simp only [EHash.remove] at habs
      rw [hr] at habs
      cases habs
  | true =>
    have hfound : ((t.buckets.getD (t.hashKey hash k) []).find?
        (keyIs k)).isSome := by
      rw [← elistRemove_fst, hr]
    have hchainpos : 1 ≤ (t.buckets.getD (t.hashKey hash k) []).length := by
      obtain ⟨p, hp⟩ := Option.isSome_iff_exists.mp hfound
      have hmem := (find?_keyIs_key hp).2
      cases hx : t.buckets.getD (t.hashKey hash k) []
      · rw [hx] at hmem; simp at hmem
      · simp [hx]
    have hclen := elistRemove_length_true (keyIs k)
      (t.buckets.getD (t.hashKey hash k) []) hr
    have hsum := sum_length_set t.buckets (t.hashKey hash k)
      ((elistRemove (keyIs k) (t.buckets.getD (t.hashKey hash k) [])).2) hik
    have hEc : (t.buckets.getD (t.hashKey hash k) []).length ≤ entryCount t :=
      getD_length_le t.buckets (t.hashKey hash k)
    have hb2 : (t.remove hash k).2.buckets
        = t.buckets.set (t.hashKey hash k)
            (elistRemove (keyIs k) (t.buckets.getD (t.hashKey hash k) [])).2 :=
      rfl
    have hn2 : (t.remove hash k).2.numElements = t.numElements - 1 := by
      simp only [EHash.remove]
      rw [hr, if_pos rfl]
    have hcpos : 1 ≤ t.numElements := by
      have : 1 ≤ entryCount t := le_trans hchainpos hEc
      omega
    have hsub : (elistRemove (keyIs k)
        (t.buckets.getD (t.hashKey hash k) [])).2.Sublist
          (t.buckets.getD (t.hashKey hash k) []) := elistRemove_sublist _ _
    refine ⟨⟨⟨?_, ?_, ?_⟩, ?_⟩, ?_, ?_, ?_⟩
    · rw [remove_snd_buckets_length]
      exact hpos
    · intro i hi p hp
      rw [remove_snd_buckets_length] at hi ⊢
      rw [hb2] at hp
      by_cases hii : i = t.hashKey hash k
      · subst hii
        rw [getD_set_self _ _ _ _ hik] at hp
        exact hidx _ hi p (hsub.subset hp)
      · rw [getD_set_ne _ _ _ _ _ hii] at hp
        exact hidx _ hi p hp
    · intro i hi
      rw [remove_snd_buckets_length] at hi
      rw [hb2]
      by_cases hii : i = t.hashKey hash k
      · subst hii
        rw [getD_set_self _ _ _ _ hik]
        exact List.Sublist.nodup (List.Sublist.map Pair.key hsub) (hnd _ hi)
      · rw [getD_set_ne _ _ _ _ _ hii]
        exact hnd _ hi
    · have hE2 : entryCount (t.remove hash k).2
          + (t.buckets.getD (t.hashKey hash k) []).length
          = entryCount t + (elistRemove (keyIs k)
              (t.buckets.getD (t.hashKey hash k) [])).2.length := by
        rw [entryCount, hb2]
        exact hsum
      rw [hn2]
      omega
    · intro q
      have hkq : (t.remove hash k).2.hashKey hash q = t.hashKey hash q := by
        rw [EHash.hashKey, EHash.hashKey, remove_snd_buckets_length]
      rw [findVal, hkq, hb2]
      by_cases hq : q = k
      · subst hq
        rw [if_pos rfl, getD_set_self _ _ _ _ hik,
          elistRemove_find?_self q _ (hnd _ hik)]
        rfl
      · rw [if_neg hq]
        by_cases hqi : t.hashKey hash q = t.hashKey hash k
        · rw [hqi, getD_set_self _ _ _ _ hik, elistRemove_find?_ne k q _ hq,
            findVal, hqi]
        · rw [getD_set_ne _ _ _ _ _ hqi, findVal]
    · intro _
      rw [hn2]
      omega
    · intro habs
      simp only [EHash.remove] at habs
      rw [hr] at habs
      cases habs

/-! ### The operation sequence level -/

lemma empty_findVal (hash : K → Nat) (n : Nat) (q : K) :
    findVal hash (EHash.empty K V n) q = none := by
  have hb : (EHash.empty K V n).buckets = List.replicate n [] := rfl
  rw [findVal, hb, getD_replicate_nil]
  rfl

lemma empty_Inv (hash : K → Nat) (n : Nat) (hn : 1 ≤ n) :
    Inv hash (EHash.empty K V n) := by
  have hb : (EHash.empty K V n).buckets = List.replicate n [] := rfl
  refine ⟨⟨?_, ?_, ?_⟩, ?_⟩
  · rw [hb, List.length_replicate]
    exact hn
  · intro i hi p hp
    rw [hb, getD_replicate_nil] at hp
    simp at hp
  · intro i hi
    rw [hb, getD_replicate_nil]
    simp
  · rw [entryCount, hb, sum_map_length_replicate]
    exact Nat.zero_le _

lemma applyOp_Inv_agree (hash : K → Nat) (t : EHash K V) (m : K → Option V)
    (op : Op K V) (hinv : Inv hash t) (hag : ∀ q, findVal hash t q = m q) :
    Inv hash (applyOp hash t op) ∧
      ∀ q, findVal hash (applyOp hash t op) q = specApply m op q := by
  cases op with
  | ins k v =>
    obtain ⟨h1, h2⟩ := insert_Inv_findVal hash t k v hinv
    refine ⟨h1, fun q => ?_⟩
    rw [applyOp, h2 q]
    simp only [specApply]
    by_cases hq : q = k
    · rw [if_pos hq, if_pos hq]
    · rw [if_neg hq, if_neg hq, hag q]
  | del k =>
    obtain ⟨h1, h2, _, _⟩ := remove_Inv_findVal hash t k hinv
    refine ⟨h1, fun q => ?_⟩
    rw [applyOp, h2 q]
    simp only [specApply]
    by_cases hq : q = k
    · rw [if_pos hq, if_pos hq]
    · rw [if_neg hq, if_neg hq, hag q]

lemma foldl_Inv_agree (hash : K → Nat) (ops : List (Op K V)) :
    ∀ (t : EHash K V) (m : K → Option V), Inv hash t →
      (∀ q, findVal hash t q = m q) →
      Inv hash (ops.foldl (applyOp hash) t) ∧
        ∀ q, findVal hash (ops.foldl (applyOp hash) t) q
          = ops.foldl specApply m q := by
  induction ops with
  | nil => intro t m h1 h2; exact ⟨h1, h2⟩
  | cons op rest ih =>
    intro t m h1 h2
    obtain ⟨h3, h4⟩ := applyOp_Inv_agree hash t m op h1 h2
    exact ih _ _ h3 h4

lemma run_Inv_agree (hash : K → Nat) (n : Nat) (hn : 1 ≤ n)
    (ops : List (Op K V)) :
    Inv hash (run hash n ops) ∧
      ∀ q, findVal hash (run hash n ops) q = specRun ops q := by
  exact foldl_Inv_agree hash ops (EHash.empty K V n) (fun _ => none)
    (empty_Inv hash n hn) (empty_findVal hash n)

lemma insert_fired_length (hash : K → Nat) (t : EHash K V) (k : K) (v : V)
    (hpos : 1 ≤ t.buckets.length) (hfire : loadExceeded t) :
    2 * t.buckets.length ≤ (t.insert hash k v).buckets.length := by
  have hins := insert_eq_insertF hash t k v hpos
  obtain ⟨f, hf⟩ : ∃ f, fuelFor t = f + 1 :=
    ⟨fuelFor t - 1, by rw [fuelFor]; omega⟩
  rw [hf, insertF, if_pos hfire] at hins
  cases hg : rehashGoAux (insertF hash f) (rehashInit t) (pendingEntries t) with
  | none => rw [hg] at hins; cases hins
  | some t1 =>
    rw [hg] at hins
    have hplace : place hash t1 k v = t.insert hash k v :=
      Option.some.inj hins
    obtain ⟨d, hl, _, _⟩ := goShape_of_insShape hash f (insShapeAll hash f)
      (pendingEntries t) (rehashInit t) t1 hg
    rw [rehashInit_length] at hl
    have h2 : 1 ≤ 2 ^ d := Nat.one_le_two_pow
    have h3 : t.buckets.length * 2 ≤ t1.buckets.length := by
      rw [hl]
      calc t.buckets.length * 2 = t.buckets.length * 2 * 1 := by ring
        _ ≤ t.buckets.length * 2 * 2 ^ d := Nat.mul_le_mul_left _ h2
    have h4 : (t.insert hash k v).buckets.length = t1.buckets.length := by
      rw [← hplace]
      exact place_buckets_length hash t1 k v
    omega

lemma foldl_buckets_pos (hash : K → Nat) (ops : List (Op K V)) :
    ∀ t : EHash K V, 1 ≤ t.buckets.length →
      1 ≤ (ops.foldl (applyOp hash) t).buckets.length := by
  induction ops with
  | nil => intro t h; exact h
  | cons op rest ih =>
    intro t h
    rw [List.foldl_cons]
    apply ih
    cases op with
    | ins k v =>
      have hins := insert_eq_insertF hash t k v h
      obtain ⟨d, hl, _, _⟩ := insShapeAll hash (fuelFor t) t k v _ hins
      show 1 ≤ (t.insert hash k v).buckets.length
      rw [hl]
      exact Nat.mul_pos h (pow_pos (by norm_num) d)
    | del k =>
      show 1 ≤ ((t.remove hash k).2).buckets.length
      rw [remove_snd_buckets_length]
      exact h

/-! ### Claim theorems -/

/-- Claim C1: for every sequence of insert/remove operations run on a map
constructed with at least one bucket and every key, find returns the value of
the most recent insert of that key not followed by a (necessarily successful)
remove of that key, and the not-found result (none, the null pointer)
when the key was never inserted or its last insert was removed; specRun is
exactly that reference semantics. -/
theorem find_returns_most_recent_insert (hash : K → Nat) (n : Nat)
    (hn : 1 ≤ n) (ops : List (Op K V)) (k : K) :
    (EHash.find hash (run hash n ops) k).1 = specRun ops k :=
  (run_Inv_agree hash n hn ops).2 k

/-- Witness for C1: a concrete trace with an overwrite and a removal. -/
theorem find_returns_most_recent_insert_witness :
    1 ≤ 8 ∧
    (EHash.find idHash
        (run idHash 8 [Op.ins 1 10, Op.ins 2 20, Op.ins 1 30, Op.del 2]) 1).1
      = specRun [Op.ins 1 10, Op.ins 2 20, Op.ins 1 30, Op.del 2] 1 :=
  ⟨by decide,
    find_returns_most_recent_insert idHash 8 (by decide)
      [Op.ins 1 10, Op.ins 2 20, Op.ins 1 30, Op.del 2] 1⟩

/-- Claim C2: on an invariant state whose load check fires, the rehash
allocates a bucket array of double the current size (rehashInit), re-inserts
every entry against the new bucket count (rehashF is the re-inserting fold),
and afterwards every previously inserted non-removed key is still retrievable
with its last-written value; the insert that triggered the resize then maps
its own key to the new value and leaves every other lookup unchanged. -/
theorem rehash_preserves_lookups (hash : K → Nat) (t : EHash K V)
    (hinv : Inv hash t) (k : K) (v : V) (hfire : loadExceeded t) :
    (rehashInit t).buckets.length = 2 * t.buckets.length ∧
    (∀ f t1, EHash.rehashF hash f t = some t1 →
      Inv hash t1 ∧ ∀ q, findVal hash t1 q = findVal hash t q) ∧
    2 * t.buckets.length ≤ (t.insert hash k v).buckets.length ∧
    (∀ q, (EHash.find hash (t.insert hash k v) q).1
      = if q = k then some v else (EHash.find hash t q).1) := by
  refine ⟨by rw [rehashInit_length]; ring, ?_,
    insert_fired_length hash t k v hinv.1.1 hfire, ?_⟩
  · intro f t1 h1
    rw [EHash.rehashF] at h1
    obtain ⟨hinv1, hfv1⟩ := goOk_of hash f (insOk hash f) (pendingEntries t)
      (rehashInit t) t1 (rehashInit_Inv hash t hinv.1.1) h1
    refine ⟨hinv1, fun q => ?_⟩
    rw [hfv1 q, rehashInit_findVal, lastVal_pending hash t hinv.1 q]
    cases findVal hash t q <;> rfl
  · exact (insert_Inv_findVal hash t k v hinv).2

/-- Witness for C2: a one-bucket map holding one entry, whose next insert
fires the load check (1/1 > 3/4). -/
theorem rehash_preserves_lookups_witness :
    (rehashInit (run idHash 1 [Op.ins 0 5])).buckets.length
      = 2 * (run idHash 1 [Op.ins 0 5]).buckets.length ∧
    (∀ f t1, EHash.rehashF idHash f (run idHash 1 [Op.ins 0 5]) = some t1 →
      Inv idHash t1 ∧
        ∀ q, findVal idHash t1 q = findVal idHash (run idHash 1 [Op.ins 0 5]) q) ∧
    2 * (run idHash 1 [Op.ins 0 5]).buckets.length
      ≤ ((run idHash 1 [Op.ins 0 5]).insert idHash 3 7).buckets.length ∧
    (∀ q, (EHash.find idHash ((run idHash 1 [Op.ins 0 5]).insert idHash 3 7) q).1
      = if q = 3 then some 7
        else (EHash.find idHash (run idHash 1 [Op.ins 0 5]) q).1) :=
  rehash_preserves_lookups idHash (run idHash 1 [Op.ins 0 5])
    (run_Inv_agree idHash 1 (by decide) [Op.ins 0 5]).1 3 7 (by decide)

/-- Claim C3 is false on the code (code bug): rehash does not reset
numElements, so during the rehash triggered by the eighth insert into a
default-sized map the load check fires again and rehash is entered
reentrantly.  Evidence: after seven inserts the state is 8 buckets / counter
7; the eighth insert leaves 32 buckets = 8 * 2^2, i.e. two rehash
invocations inside one insert call (each invocation doubles the current
bucket count exactly once), where at most one rehash per insert would end at
16; the counter ends at 21 although only 8 entries are stored. -/
theorem reentrant_rehash_on_eighth_insert :
    (run idHash 8 [Op.ins 0 0, Op.ins 1 1, Op.ins 2 2, Op.ins 3 3,
        Op.ins 4 4, Op.ins 5 5, Op.ins 6 6]).buckets.length = 8 ∧
    (run idHash 8 [Op.ins 0 0, Op.ins 1 1, Op.ins 2 2, Op.ins 3 3,
        Op.ins 4 4, Op.ins 5 5, Op.ins 6 6]).numElements = 7 ∧
    (run idHash 8 [Op.ins 0 0, Op.ins 1 1, Op.ins 2 2, Op.ins 3 3,
        Op.ins 4 4, Op.ins 5 5, Op.ins 6 6, Op.ins 7 7]).buckets.length = 32 ∧
    (run idHash 8 [Op.ins 0 0, Op.ins 1 1, Op.ins 2 2, Op.ins 3 3,
        Op.ins 4 4, Op.ins 5 5, Op.ins 6 6, Op.ins 7 7]).numElements = 21 ∧
    entryCount (run idHash 8 [Op.ins 0 0, Op.ins 1 1, Op.ins 2 2, Op.ins 3 3,
        Op.ins 4 4, Op.ins 5 5, Op.ins 6 6, Op.ins 7 7]) = 8 := by
  decide

/-- Counterexample to C4 as stated: after the seventh insert into a default
8-bucket map, numElements / bucket_count = 7/8 > 0.75, because the pre-insert
check compares the count before the insert. -/
theorem load_factor_bound_cex :
    (run idHash 8 [Op.ins 0 0, Op.ins 1 1, Op.ins 2 2, Op.ins 3 3,
        Op.ins 4 4, Op.ins 5 5, Op.ins 6 6]).numElements = 7 ∧
    (run idHash 8 [Op.ins 0 0, Op.ins 1 1, Op.ins 2 2, Op.ins 3 3,
        Op.ins 4 4, Op.ins 5 5, Op.ins 6 6]).buckets.length = 8 ∧
    3 * (run idHash 8 [Op.ins 0 0, Op.ins 1 1, Op.ins 2 2, Op.ins 3 3,
        Op.ins 4 4, Op.ins 5 5, Op.ins 6 6]).buckets.length
      < 4 * (run idHash 8 [Op.ins 0 0, Op.ins 1 1, Op.ins 2 2, Op.ins 3 3,
        Op.ins 4 4, Op.ins 5 5, Op.ins 6 6]).numElements := by
  decide

/-- Claim C4 (amended): after an insert whose entry load check does not fire
(element_count / bucket_count <= 0.75 at entry), the post-insert load factor
exceeds max_load_factor by at most one element:
4 * element_count <= 3 * bucket_count + 4, i.e.
element_count / bucket_count <= 0.75 + 1 / bucket_count.  The unqualified
bound of the claim fails (load_factor_bound_cex), and inserts that do fire
the check can exceed even this tolerance because rehash double-counts
re-inserted entries in numElements. -/
theorem load_factor_bound_amended (hash : K → Nat) (t : EHash K V) (k : K)
    (v : V) (h : ¬loadExceeded t) :
    4 * (t.insert hash k v).numElements
      ≤ 3 * (t.insert hash k v).buckets.length + 4 := by
  rw [insert_not_fired hash t k v h]
  have h1 := place_num_le hash t k v
  have h2 := place_buckets_length hash t k v
  have h3 : ¬(3 * t.buckets.length < 4 * t.numElements) := h
  omega

/-- Witness for the amended C4 at a concrete non-firing state. -/
theorem load_factor_bound_amended_witness :
    ¬loadExceeded (EHash.empty Nat Nat 8) ∧
    4 * ((EHash.empty Nat Nat 8).insert idHash 0 0).numElements
      ≤ 3 * ((EHash.empty Nat Nat 8).insert idHash 0 0).buckets.length + 4 :=
  ⟨by decide, load_factor_bound_amended idHash (EHash.empty Nat Nat 8) 0 0
    (by decide)⟩

/-- Counterexample to C5 as stated: with 6 elements in 8 buckets, the
claim's condition (element_count + 1) / bucket_count = 7/8 > 0.75 holds, so
the claim predicts a resize on the next insert; but the code compares
6/8 > 0.75, which is false, and the bucket count stays 8 (any resize at
least doubles it, by insert_fired_length). -/
theorem resize_condition_cex :
    (run idHash 8 [Op.ins 0 0, Op.ins 1 1, Op.ins 2 2, Op.ins 3 3,
        Op.ins 4 4, Op.ins 5 5]).numElements = 6 ∧
    (run idHash 8 [Op.ins 0 0, Op.ins 1 1, Op.ins 2 2, Op.ins 3 3,
        Op.ins 4 4, Op.ins 5 5]).buckets.length = 8 ∧
    3 * (run idHash 8 [Op.ins 0 0, Op.ins 1 1, Op.ins 2 2, Op.ins 3 3,
        Op.ins 4 4, Op.ins 5 5]).buckets.length
      < 4 * ((run idHash 8 [Op.ins 0 0, Op.ins 1 1, Op.ins 2 2, Op.ins 3 3,
        Op.ins 4 4, Op.ins 5 5]).numElements + 1) ∧
    ((run idHash 8 [Op.ins 0 0, Op.ins 1 1, Op.ins 2 2, Op.ins 3 3,
        Op.ins 4 4, Op.ins 5 5]).insert idHash 6 6).buckets.length = 8 := by
  decide

/-- Claim C5 (amended): insert performs a resize before inserting exactly
when element_count / bucket_count > max_load_factor evaluated at entry with
the CURRENT count (no +1), i.e. 3 * bucket_count < 4 * element_count; a
resize is observable as a bucket-count change, since rehash at least doubles
the bucket count and nothing else ever changes it during an insert. -/
theorem resize_condition_amended (hash : K → Nat) (t : EHash K V) (k : K)
    (v : V) (hpos : 1 ≤ t.buckets.length) :
    (t.insert hash k v).buckets.length ≠ t.buckets.length
      ↔ loadExceeded t := by
  constructor
  · intro hne
    by_contra hnf
    rw [insert_not_fired hash t k v hnf] at hne
    exact hne (place_buckets_length hash t k v)
  · intro hfire
    have h1 := insert_fired_length hash t k v hpos hfire
    omega

/-- Witness for the amended C5 at a concrete firing state. -/
theorem resize_condition_amended_witness :
    1 ≤ (run idHash 1 [Op.ins 0 5]).buckets.length ∧
    (((run idHash 1 [Op.ins 0 5]).insert idHash 1 6).buckets.length
        ≠ (run idHash 1 [Op.ins 0 5]).buckets.length
      ↔ loadExceeded (run idHash 1 [Op.ins 0 5])) :=
  ⟨by decide, resize_condition_amended idHash (run idHash 1 [Op.ins 0 5]) 1 6
    (by decide)⟩

/-- Claim C6 is false on the code (code bug): rehash re-inserts every entry
through insert, incrementing numElements again without ever resetting it, so
after the rehash triggered by the second insert into a one-bucket map the
counter reads 3 while only 2 entries are stored.  This contradicts the
field's own documentation (numElements: "number of elements"). -/
theorem counter_drift_after_rehash :
    (run idHash 1 [Op.ins 0 10, Op.ins 1 20]).numElements = 3 ∧
    entryCount (run idHash 1 [Op.ins 0 10, Op.ins 1 20]) = 2 := by
  decide

/-- Claim C7's overwrite path is in place (one entry, new value), but the
claim that element_count is unchanged by the second insert is false on the
code (code bug): when the second insert of the same key first triggers a
rehash, the re-insertion double-counts, so inserting key 0 twice into a
one-bucket map leaves one entry with the new value yet numElements = 2. -/
theorem overwrite_changes_counter :
    (run idHash 1 [Op.ins 0 10]).numElements = 1 ∧
    (run idHash 1 [Op.ins 0 10, Op.ins 0 20]).numElements = 2 ∧
    entryCount (run idHash 1 [Op.ins 0 10, Op.ins 0 20]) = 1 ∧
    (EHash.find idHash (run idHash 1 [Op.ins 0 10, Op.ins 0 20]) 0).1
      = some 20 := by
  decide

/-- Claim C8: on an invariant state, remove returns true exactly when the
key is present (find returns non-null), decrementing numElements by one;
remove returns false leaving the map fully unchanged otherwise; and after a
successful remove, find returns the null result and an immediate second
remove returns false. -/
theorem remove_exact (hash : K → Nat) (t : EHash K V) (k : K)
    (hinv : Inv hash t) :
    ((t.remove hash k).1 = (EHash.find hash t k).1.isSome) ∧
    ((t.remove hash k).1 = true →
      (t.remove hash k).2.numElements + 1 = t.numElements) ∧
    ((t.remove hash k).1 = false → (t.remove hash k).2 = t) ∧
    ((t.remove hash k).1 = true →
      (EHash.find hash (t.remove hash k).2 k).1 = none ∧
      ((t.remove hash k).2.remove hash k).1 = false) := by
  obtain ⟨h1, h2, h3, h4⟩ := remove_Inv_findVal hash t k hinv
  refine ⟨remove_fst hash t k, h3, h4, fun htrue => ?_⟩
  have hnone : findVal hash (t.remove hash k).2 k = none := by
    have h5 := h2 k
    rw [if_pos rfl] at h5
    exact h5
  refine ⟨hnone, ?_⟩
  rw [remove_fst hash (t.remove hash k).2 k, hnone]
  rfl

/-- Witness for C8: removing the sole key of a concrete reachable map. -/
theorem remove_exact_witness :
    (((run idHash 8 [Op.ins 3 9]).remove idHash 3).1
      = (EHash.find idHash (run idHash 8 [Op.ins 3 9]) 3).1.isSome) ∧
    (((run idHash 8 [Op.ins 3 9]).remove idHash 3).1 = true →
      ((run idHash 8 [Op.ins 3 9]).remove idHash 3).2.numElements + 1
        = (run idHash 8 [Op.ins 3 9]).numElements) ∧
    (((run idHash 8 [Op.ins 3 9]).remove idHash 3).1 = false →
      ((run idHash 8 [Op.ins 3 9]).remove idHash 3).2
        = run idHash 8 [Op.ins 3 9]) ∧
    (((run idHash 8 [Op.ins 3 9]).remove idHash 3).1 = true →
      (EHash.find idHash
        ((run idHash 8 [Op.ins 3 9]).remove idHash 3).2 3).1 = none ∧
      (((run idHash 8 [Op.ins 3 9]).remove idHash 3).2.remove idHash 3).1
        = false) :=
  remove_exact idHash (run idHash 8 [Op.ins 3 9]) 3
    (run_Inv_agree idHash 8 (by decide) [Op.ins 3 9]).1

/-- Claim C9: find's body only reads, so it returns the state unchanged
(it never resizes and modifies no bucket, entry or counter), and remove
never changes the bucket count (the bucket array is never shrunk or grown by
removal). -/
theorem find_pure_remove_keeps_buckets :
    (∀ (hash : K → Nat) (t : EHash K V) (k : K), (EHash.find hash t k).2 = t) ∧
    (∀ (hash : K → Nat) (t : EHash K V) (k : K),
      ((t.remove hash k).2).buckets.length = t.buckets.length) :=
  ⟨fun _ _ _ => rfl, fun hash t k => remove_snd_buckets_length hash t k⟩

/-- Claim C10: a map constructed with at least one bucket keeps at least one
bucket after every operation sequence (rehash only doubles, remove never
changes the count), so hashKey's modulo never has divisor zero; but the
constructor performs no validation, and a map constructed with bucket count
zero makes hashKey — used by the very first insert, find, or remove —
evaluate hash k % 0. -/
theorem bucket_count_positive_and_zero_unchecked :
    (∀ (hash : K → Nat) (n : Nat), 1 ≤ n → ∀ ops : List (Op K V),
      1 ≤ (run hash n ops).buckets.length) ∧
    (EHash.empty K V 0).buckets.length = 0 ∧
    (∀ (hash : K → Nat) (k : K),
      EHash.hashKey hash (EHash.empty K V 0) k = hash k % 0) := by
  refine ⟨?_, rfl, fun hash k => rfl⟩
  intro hash n hn ops
  have hstart : 1 ≤ (EHash.empty K V n).buckets.length := by
    have hb : (EHash.empty K V n).buckets = List.replicate n [] := rfl
    rw [hb, List.length_replicate]
    exact hn
  rw [run]
  exact foldl_buckets_pos hash ops (EHash.empty K V n) hstart

/-- Witness for C10: a short concrete trace on a one-bucket map. -/
theorem bucket_count_positive_witness :
    1 ≤ 1 ∧
    1 ≤ (run idHash 1 [Op.ins 4 4, Op.del 4] : EHash Nat Nat).buckets.length :=
  ⟨by decide,
    (bucket_count_positive_and_zero_unchecked (K := Nat) (V := Nat)).1 idHash 1
      (by decide) [Op.ins 4 4, Op.del 4]⟩

end Andy
